import Mathlib

/-!
Verification development for the `customizable_bevy_yarnspinner` repository.

The repository is a Rust port of the Yarn Spinner dialogue-language toolchain:
a compiler (lexer, parser, semantic passes, code generator) producing a
bytecode `Program` plus a string table, and a cooperative virtual machine
surfacing lines / options / commands to a host.  This file gives a shallow
embedding of the parts of the code base needed to settle the frozen claims:

* the last-line-before-options tagging pass (§4.5 of the spec; the visitor
  `last_line_before_options_visitor.rs` is declared in
  `src/crates/compiler/src/visitors.rs` but its body is not among the
  sources, so it is modelled from the spec and pinned down by the tests in
  `src/crates/yarnspinner/tests/tag_tests.rs`);
* the compilation job (`src/crates/compiler/src/compiler.rs`) and the
  `register_initial_variables` compilation step
  (`src/crates/compiler/src/compilation_steps/register_initial_variables.rs`);
* the diagnostic-context helper `get_lines_around`
  (`src/crates/compiler/src/parser_rule_context_ext.rs`);
* the host-function calling convention `YarnFn::call`
  (`src/crates/core/src/yarn_fn/function_wrapping.rs`);
* the option filtering of the example dialogue view
  (`src/crates/example_dialogue_view/src/option_selection.rs`);
* the dialogue-runner event loop for commands (the VM crate is not among
  the sources; modelled from §4.6/§4.7 of the spec and pinned down by
  `src/crates/bevy_plugin/tests/test_dialogue_runner_runs_commands.rs`).
-/

set_option autoImplicit false

namespace YarnTag

/-- Modelled from the spec: the statement shapes of a node body that are
relevant to the last-line-before-options pass (§4.2, §4.5).  A `shortcut`
holds the bodies of its options; an `ifStmt` holds the bodies of its
branches (`if`/`elseif`/`else`).  The remaining statement kinds
(`<<set>>`, `<<declare>>`, `<<jump>>`, `<<call>>`, custom `<<command>>`)
carry no sub-blocks that the pass descends into. -/
inductive Stmt where
  | line (id : String)
  | shortcut (opts : List (List Stmt))
  | ifStmt (branches : List (List Stmt))
  | setStmt
  | declareStmt
  | jumpStmt
  | callStmt
  | commandStmt

/-- Whether a block starts with a shortcut option group. -/
def isShortcutHead : List Stmt → Bool
  | Stmt.shortcut _ :: _ => true
  | _ => false

/-- Whether a statement is itself a shortcut option group. -/
def isShortcut : Stmt → Bool
  | Stmt.shortcut _ => true
  | _ => false

/-- Whether a statement is one of the adjacency-breaking statements listed
in §4.5: `<<command>>`, `<<set>>`, `<<declare>>`, `<<jump>>`, `<<call>>`. -/
def isInterrupter : Stmt → Bool
  | Stmt.setStmt => true
  | Stmt.declareStmt => true
  | Stmt.jumpStmt => true
  | Stmt.callStmt => true
  | Stmt.commandStmt => true
  | _ => false

mutual

/-- Modelled from the spec: the contribution of one statement to the
last-line pass, given the remainder of its block (§4.5).  A `line`
immediately followed by a shortcut group in the same block is tagged; a
shortcut group and an `if` statement are descended into recursively. -/
def tagStmt : Stmt → List Stmt → List String
  | Stmt.line id, rest => if isShortcutHead rest then [id] else []
  | Stmt.shortcut opts, _ => tagBlocks opts
  | Stmt.ifStmt branches, _ => tagBlocks branches
  | _, _ => []

/-- Modelled from the spec: the line ids receiving the `lastline` metadata
tag in one block (§4.5, `last_line_before_options_visitor.rs` is not among
the sources). -/
def tagBlock : List Stmt → List String
  | [] => []
  | s :: rest => tagStmt s rest ++ tagBlock rest

/-- The line ids tagged in any of a list of blocks. -/
def tagBlocks : List (List Stmt) → List String
  | [] => []
  | b :: bs => tagBlock b ++ tagBlocks bs

end

/-- A dialogue node: a title and a body block. -/
structure Node where
  title : String
  body : List Stmt

/-- The string-table metadata the tag pass attaches to line `id` of node
`n`: the `lastline` tag exactly when the pass tagged the id inside the
node's own body. -/
def metadataFor (n : Node) (id : String) : List String :=
  if id ∈ tagBlock n.body then ["lastline"] else []

/-- Specification-side adjacency predicate: line `id` immediately precedes
a shortcut option group somewhere in the given block, descending
recursively into option bodies and `if` branches (§4.5). -/
inductive PrecedesOptions : List Stmt → String → Prop where
  | head (id : String) (opts : List (List Stmt)) (rest : List Stmt) :
      PrecedesOptions (Stmt.line id :: Stmt.shortcut opts :: rest) id
  | tail {rest : List Stmt} {id : String} (s : Stmt) :
      PrecedesOptions rest id → PrecedesOptions (s :: rest) id
  | inOption {opts : List (List Stmt)} {b : List Stmt} {id : String} (rest : List Stmt) :
      b ∈ opts → PrecedesOptions b id → PrecedesOptions (Stmt.shortcut opts :: rest) id
  | inBranch {branches : List (List Stmt)} {b : List Stmt} {id : String} (rest : List Stmt) :
      b ∈ branches → PrecedesOptions b id → PrecedesOptions (Stmt.ifStmt branches :: rest) id

theorem mem_tagBlocks_iff {bs : List (List Stmt)} {id : String} :
    id ∈ tagBlocks bs ↔ ∃ b ∈ bs, id ∈ tagBlock b := by
  induction bs with
  | nil => simp [tagBlocks]
  | cons b bs ih =>
    simp only [tagBlocks, List.mem_append, ih, List.mem_cons]
    constructor
    · rintro (h | ⟨b', hb', h⟩)
      · exact ⟨b, Or.inl rfl, h⟩
      · exact ⟨b', Or.inr hb', h⟩
    · rintro ⟨b', hb' | hb', h⟩
      · exact Or.inl (hb' ▸ h)
      · exact Or.inr ⟨b', hb', h⟩

theorem tagBlock_cons (s : Stmt) (rest : List Stmt) :
    tagBlock (s :: rest) = tagStmt s rest ++ tagBlock rest := by
  simp [tagBlock]

theorem tagStmt_line (id : String) (rest : List Stmt) :
    tagStmt (Stmt.line id) rest = if isShortcutHead rest then [id] else [] := by
  simp [tagStmt]

theorem tagStmt_shortcut (opts : List (List Stmt)) (rest : List Stmt) :
    tagStmt (Stmt.shortcut opts) rest = tagBlocks opts := by
  simp [tagStmt]

theorem tagStmt_ifStmt (brs : List (List Stmt)) (rest : List Stmt) :
    tagStmt (Stmt.ifStmt brs) rest = tagBlocks brs := by
  simp [tagStmt]

theorem tagStmt_interrupter {s : Stmt} (hs : isInterrupter s = true) (rest : List Stmt) :
    tagStmt s rest = [] := by
  cases s <;> simp [isInterrupter] at hs <;> simp [tagStmt]

theorem isShortcutHead_eq_true_iff {rest : List Stmt} :
    isShortcutHead rest = true ↔ ∃ opts rest', rest = Stmt.shortcut opts :: rest' := by
  cases rest with
  | nil => simp [isShortcutHead]
  | cons s r => cases s <;> simp [isShortcutHead]

theorem isShortcutHead_interrupter_cons {s : Stmt} (hs : isInterrupter s = true)
    (rest : List Stmt) : isShortcutHead (s :: rest) = false := by
  cases s <;> simp [isInterrupter] at hs <;> simp [isShortcutHead]

theorem precedes_cons_of_not_shortcut_head {s : Stmt} {rest : List Stmt} {id : String}
    (hs : (∃ opts, s = Stmt.shortcut opts) ∨ (∃ brs, s = Stmt.ifStmt brs) → False)
    (hhead : isShortcutHead rest = false) :
    PrecedesOptions (s :: rest) id ↔ PrecedesOptions rest id := by
  constructor
  · intro h
    cases h with
    | head => simp [isShortcutHead] at hhead
    | tail _ h => exact h
    | inOption rest hb h => exact absurd (Or.inl ⟨_, rfl⟩) hs
    | inBranch rest hb h => exact absurd (Or.inr ⟨_, rfl⟩) hs
  · exact PrecedesOptions.tail s

theorem precedes_interrupter_cons_iff {s : Stmt} {rest : List Stmt} {id : String}
    (hs : isInterrupter s = true) :
    PrecedesOptions (s :: rest) id ↔ PrecedesOptions rest id := by
  constructor
  · intro h
    cases h with
    | head => simp [isInterrupter] at hs
    | tail _ h => exact h
    | inOption rest hb h => simp [isInterrupter] at hs
    | inBranch rest hb h => simp [isInterrupter] at hs
  · exact PrecedesOptions.tail s

theorem precedes_line_shortcut_iff {id' id : String} {opts : List (List Stmt)}
    {rest : List Stmt} :
    PrecedesOptions (Stmt.line id' :: Stmt.shortcut opts :: rest) id ↔
      id = id' ∨ PrecedesOptions (Stmt.shortcut opts :: rest) id := by
  constructor
  · intro h
    cases h with
    | head => exact Or.inl rfl
    | tail _ h => exact Or.inr h
  · rintro (rfl | h)
    · exact PrecedesOptions.head id opts rest
    · exact PrecedesOptions.tail _ h

theorem precedes_shortcut_cons_iff {opts : List (List Stmt)} {rest : List Stmt} {id : String} :
    PrecedesOptions (Stmt.shortcut opts :: rest) id ↔
      (∃ b ∈ opts, PrecedesOptions b id) ∨ PrecedesOptions rest id := by
  constructor
  · intro h
    cases h with
    | tail _ h => exact Or.inr h
    | inOption rest hb h => exact Or.inl ⟨_, hb, h⟩
  · rintro (⟨b, hb, h⟩ | h)
    · exact PrecedesOptions.inOption rest hb h
    · exact PrecedesOptions.tail _ h

theorem precedes_if_cons_iff {brs : List (List Stmt)} {rest : List Stmt} {id : String} :
    PrecedesOptions (Stmt.ifStmt brs :: rest) id ↔
      (∃ b ∈ brs, PrecedesOptions b id) ∨ PrecedesOptions rest id := by
  constructor
  · intro h
    cases h with
    | tail _ h => exact Or.inr h
    | inBranch rest hb h => exact Or.inl ⟨_, hb, h⟩
  · rintro (⟨b, hb, h⟩ | h)
    · exact PrecedesOptions.inBranch rest hb h
    · exact PrecedesOptions.tail _ h

/-- Membership in the computed tag list coincides with the spec-side
adjacency predicate. -/
theorem mem_tagBlock_iff :
    ∀ (b : List Stmt) (id : String), id ∈ tagBlock b ↔ PrecedesOptions b id := by
  have key : ∀ (n : Nat) (b : List Stmt), sizeOf b ≤ n → ∀ (id : String),
      (id ∈ tagBlock b ↔ PrecedesOptions b id) := by
    intro n
    induction n with
    | zero =>
      intro b hb id
      cases b <;> simp at hb
    | succ n ih =>
      intro b hb id
      cases b with
      | nil =>
        simp only [tagBlock, List.not_mem_nil, false_iff]
        intro h; cases h
      | cons s rest =>
        have hrest : sizeOf rest ≤ n := by
          cases s <;> simp at hb <;> omega
        rw [tagBlock_cons]
        simp only [List.mem_append]
        cases s with
        | line id' =>
          rw [tagStmt_line]
          cases hh : isShortcutHead rest with
          | true =>
            obtain ⟨opts, rest', rfl⟩ := isShortcutHead_eq_true_iff.mp hh
            simp only [if_true, List.mem_singleton]
            rw [ih _ hrest, precedes_line_shortcut_iff]
          | false =>
            simp only [Bool.false_eq_true, if_false, List.not_mem_nil, false_or]
            rw [ih _ hrest,
              precedes_cons_of_not_shortcut_head (by rintro (⟨_, h⟩ | ⟨_, h⟩) <;> cases h) hh]
        | shortcut opts =>
          rw [tagStmt_shortcut]
          rw [mem_tagBlocks_iff, ih _ hrest, precedes_shortcut_cons_iff]
          have hopts : ∀ b' ∈ opts, (id ∈ tagBlock b' ↔ PrecedesOptions b' id) := by
            intro b' hb'
            have h1 := List.sizeOf_lt_of_mem hb'
            have hsz : sizeOf b' ≤ n := by simp at hb; omega
            exact ih _ hsz id
          constructor
          · rintro (⟨b', hb', h⟩ | h)
            · exact Or.inl ⟨b', hb', (hopts b' hb').mp h⟩
            · exact Or.inr h
          · rintro (⟨b', hb', h⟩ | h)
            · exact Or.inl ⟨b', hb', (hopts b' hb').mpr h⟩
            · exact Or.inr h
        | ifStmt brs =>
          rw [tagStmt_ifStmt]
          rw [mem_tagBlocks_iff, ih _ hrest, precedes_if_cons_iff]
          have hbrs : ∀ b' ∈ brs, (id ∈ tagBlock b' ↔ PrecedesOptions b' id) := by
            intro b' hb'
            have h1 := List.sizeOf_lt_of_mem hb'
            have hsz : sizeOf b' ≤ n := by simp at hb; omega
            exact ih _ hsz id
          constructor
          · rintro (⟨b', hb', h⟩ | h)
            · exact Or.inl ⟨b', hb', (hbrs b' hb').mp h⟩
            · exact Or.inr h
          · rintro (⟨b', hb', h⟩ | h)
            · exact Or.inl ⟨b', hb', (hbrs b' hb').mpr h⟩
            · exact Or.inr h
        | setStmt =>
          rw [tagStmt_interrupter (s := Stmt.setStmt) rfl]
          simp only [List.not_mem_nil, false_or]
          rw [ih _ hrest, precedes_interrupter_cons_iff (s := Stmt.setStmt) rfl]
        | declareStmt =>
          rw [tagStmt_interrupter (s := Stmt.declareStmt) rfl]
          simp only [List.not_mem_nil, false_or]
          rw [ih _ hrest, precedes_interrupter_cons_iff (s := Stmt.declareStmt) rfl]
        | jumpStmt =>
          rw [tagStmt_interrupter (s := Stmt.jumpStmt) rfl]
          simp only [List.not_mem_nil, false_or]
          rw [ih _ hrest, precedes_interrupter_cons_iff (s := Stmt.jumpStmt) rfl]
        | callStmt =>
          rw [tagStmt_interrupter (s := Stmt.callStmt) rfl]
          simp only [List.not_mem_nil, false_or]
          rw [ih _ hrest, precedes_interrupter_cons_iff (s := Stmt.callStmt) rfl]
        | commandStmt =>
          rw [tagStmt_interrupter (s := Stmt.commandStmt) rfl]
          simp only [List.not_mem_nil, false_or]
          rw [ih _ hrest, precedes_interrupter_cons_iff (s := Stmt.commandStmt) rfl]
  intro b id
  exact key (sizeOf b) b le_rfl id

theorem isShortcutHead_cons (s : Stmt) (l : List Stmt) :
    isShortcutHead (s :: l) = isShortcut s := by
  cases s <;> rfl

theorem precedes_append (pre : List Stmt) {b : List Stmt} {id : String}
    (h : PrecedesOptions b id) : PrecedesOptions (pre ++ b) id := by
  induction pre with
  | nil => exact h
  | cons s pre ih => exact PrecedesOptions.tail s ih

theorem tagStmt_congr_head {s : Stmt} {r₁ r₂ : List Stmt}
    (h : isShortcutHead r₁ = isShortcutHead r₂) : tagStmt s r₁ = tagStmt s r₂ := by
  cases s with
  | line id => rw [tagStmt_line, tagStmt_line, h]
  | shortcut opts => rw [tagStmt_shortcut, tagStmt_shortcut]
  | ifStmt brs => rw [tagStmt_ifStmt, tagStmt_ifStmt]
  | setStmt => rw [tagStmt_interrupter (s := Stmt.setStmt) rfl,
      tagStmt_interrupter (s := Stmt.setStmt) rfl]
  | declareStmt => rw [tagStmt_interrupter (s := Stmt.declareStmt) rfl,
      tagStmt_interrupter (s := Stmt.declareStmt) rfl]
  | jumpStmt => rw [tagStmt_interrupter (s := Stmt.jumpStmt) rfl,
      tagStmt_interrupter (s := Stmt.jumpStmt) rfl]
  | callStmt => rw [tagStmt_interrupter (s := Stmt.callStmt) rfl,
      tagStmt_interrupter (s := Stmt.callStmt) rfl]
  | commandStmt => rw [tagStmt_interrupter (s := Stmt.commandStmt) rfl,
      tagStmt_interrupter (s := Stmt.commandStmt) rfl]

/-- Appending a line at the very end of a block creates no tag: nothing
follows it inside the block. -/
theorem tagBlock_append_line (front : List Stmt) (id : String) :
    tagBlock (front ++ [Stmt.line id]) = tagBlock front := by
  induction front with
  | nil =>
    rw [List.nil_append, tagBlock_cons, tagStmt_line]
    simp [isShortcutHead, tagBlock]
  | cons s front ih =>
    rw [List.cons_append, tagBlock_cons, tagBlock_cons, ih]
    congr 1
    apply tagStmt_congr_head
    cases front with
    | nil => simp [isShortcutHead]
    | cons s' front' => rw [List.cons_append, isShortcutHead_cons, isShortcutHead_cons]

/-- C1: the computed `lastline` metadata characterises exactly the lines
immediately followed by a shortcut option group in the same block of the
same node.  The trailing conjuncts check the three untagged situations the
claim singles out: a line with no following options, a line followed by
another line before the options, and a line that closes its node while the
options live in a different node. -/
theorem c1_lastline_iff_line_precedes_options :
    (∀ (b : List Stmt) (id : String), id ∈ tagBlock b ↔ PrecedesOptions b id) ∧
    (∀ (n : Node) (id : String),
      "lastline" ∈ metadataFor n id ↔ PrecedesOptions n.body id) ∧
    metadataFor ⟨"Start", [Stmt.line "line:1"]⟩ "line:1" = [] ∧
    metadataFor ⟨"Start",
      [Stmt.line "line:0", Stmt.line "line:1", Stmt.shortcut [[], []]]⟩ "line:0" = [] ∧
    metadataFor ⟨"Start", [Stmt.line "line:0"]⟩ "line:0" = [] ∧
    metadataFor ⟨"Second", [Stmt.shortcut [[]]]⟩ "line:0" = [] := by
  refine ⟨mem_tagBlock_iff, fun n id => ?_, ?_, ?_, ?_, ?_⟩
  · rw [metadataFor]
    by_cases h : id ∈ tagBlock n.body
    · rw [if_pos h]
      simp only [List.mem_singleton]
      exact iff_of_true trivial ((mem_tagBlock_iff n.body id).mp h)
    · simp only [if_neg h, List.not_mem_nil, false_iff]
      exact fun hp => h ((mem_tagBlock_iff n.body id).mpr hp)
  · simp [metadataFor, tagBlock, tagStmt, tagBlocks, isShortcutHead]
  · simp [metadataFor, tagBlock, tagStmt, tagBlocks, isShortcutHead]
  · simp [metadataFor, tagBlock, tagStmt, tagBlocks, isShortcutHead]
  · simp [metadataFor, tagBlock, tagStmt, tagBlocks, isShortcutHead]

/-- C2: an interrupting `<<set>>`, `<<declare>>`, `<<jump>>`, `<<call>>` or
custom `<<command>>` between a line and the following option group prevents
the `lastline` tag on that line. -/
theorem c2_interrupter_removes_lastline :
    ∀ (name id : String) (mid : List Stmt) (m : Stmt) (opts : List (List Stmt))
      (post : List Stmt),
      m ∈ mid → isInterrupter m = true → (∀ s ∈ mid, isShortcut s = false) →
      id ∉ tagBlock (mid ++ Stmt.shortcut opts :: post) →
      "lastline" ∉
        metadataFor ⟨name, Stmt.line id :: (mid ++ Stmt.shortcut opts :: post)⟩ id := by
  intro name id mid m opts post hm _hint hns hrest
  rw [metadataFor]
  have hmem : id ∉ tagBlock (Stmt.line id :: (mid ++ Stmt.shortcut opts :: post)) := by
    rw [tagBlock_cons, tagStmt_line]
    cases mid with
    | nil => cases hm
    | cons s₀ mid' =>
      rw [List.cons_append, isShortcutHead_cons, hns s₀ (List.mem_cons_self s₀ mid')]
      simp only [if_false, List.nil_append, Bool.false_eq_true]
      exact hrest
  simp only [if_neg hmem, List.not_mem_nil, not_false_iff]

/-- C3: inside an `if` block the last line is tagged exactly when the option
group follows inside the same branch.  First conjunct: a line immediately
followed by a shortcut group inside a branch of an `if` is tagged.  Second
conjunct: a line that ends a branch is not tagged when the option group only
follows the `if` (the `<<endif>>` separates them).  Third conjunct: tagging
applies recursively inside nested option bodies. -/
theorem c3_if_block_lastline :
    (∀ (name id : String) (pre suf : List Stmt) (opts brs : List (List Stmt))
      (rest : List Stmt),
      (pre ++ Stmt.line id :: Stmt.shortcut opts :: suf) ∈ brs →
      "lastline" ∈ metadataFor ⟨name, Stmt.ifStmt brs :: rest⟩ id) ∧
    (∀ (name id : String) (front : List Stmt) (others opts : List (List Stmt))
      (rest : List Stmt),
      id ∉ tagBlock front → (∀ b ∈ others, id ∉ tagBlock b) →
      (∀ b ∈ opts, id ∉ tagBlock b) → id ∉ tagBlock rest →
      "lastline" ∉
        metadataFor
          ⟨name, Stmt.ifStmt ((front ++ [Stmt.line id]) :: others) ::
            Stmt.shortcut opts :: rest⟩ id) ∧
    (∀ (name id : String) (b : List Stmt) (opts : List (List Stmt)) (rest : List Stmt),
      b ∈ opts → id ∈ tagBlock b →
      "lastline" ∈ metadataFor ⟨name, Stmt.shortcut opts :: rest⟩ id) := by
  refine ⟨?_, ?_, ?_⟩
  · intro name id pre suf opts brs rest hbr
    have hp : PrecedesOptions (Stmt.ifStmt brs :: rest) id :=
      PrecedesOptions.inBranch rest hbr
        (precedes_append pre (PrecedesOptions.head id opts suf))
    have hmem := (mem_tagBlock_iff _ id).mpr hp
    simp [metadataFor, if_pos hmem]
  · intro name id front others opts rest hfront hothers hopts hrest
    have hmem : id ∉ tagBlock (Stmt.ifStmt ((front ++ [Stmt.line id]) :: others) ::
        Stmt.shortcut opts :: rest) := by
      rw [tagBlock_cons, tagStmt_ifStmt, tagBlock_cons, tagStmt_shortcut]
      simp only [List.mem_append, not_or]
      refine ⟨?_, ?_, hrest⟩
      · rw [mem_tagBlocks_iff]
        rintro ⟨b, hb, hmem⟩
        rcases List.mem_cons.mp hb with rfl | hb
        · rw [tagBlock_append_line] at hmem
          exact hfront hmem
        · exact hothers b hb hmem
      · rw [mem_tagBlocks_iff]
        rintro ⟨b, hb, hmem⟩
        exact hopts b hb hmem
    simp [metadataFor, if_neg hmem]
  · intro name id b opts rest hb hmem
    have hmem' : id ∈ tagBlock (Stmt.shortcut opts :: rest) := by
      rw [tagBlock_cons, tagStmt_shortcut]
      exact List.mem_append.mpr (Or.inl (mem_tagBlocks_iff.mpr ⟨b, hb, hmem⟩))
    simp [metadataFor, if_pos hmem']

/-- Closed instance of `c2_interrupter_removes_lastline`, mirroring the
`line before set #line:2` scenario of `test_interrupted_lines_not_tagged`. -/
theorem c2_interrupter_removes_lastline_witness :
    "lastline" ∉
      metadataFor ⟨"Start",
        Stmt.line "line:2" :: ([Stmt.setStmt] ++ Stmt.shortcut [[], []] :: [])⟩ "line:2" := by
  apply c2_interrupter_removes_lastline "Start" "line:2" [Stmt.setStmt] Stmt.setStmt
      [[], []] []
  · exact List.mem_singleton.mpr rfl
  · rfl
  · intro s hs
    rw [List.mem_singleton.mp hs]
    rfl
  · simp [tagBlock, tagStmt, tagBlocks, isShortcutHead]

/-- Closed instances of `c3_if_block_lastline`, mirroring
`test_if_interior_lines_tagged_last_line`,
`test_if_interior_lines_not_tagged_last_line` and
`test_nested_option_lines_tagged_last_line`. -/
theorem c3_if_block_lastline_witness :
    ("lastline" ∈
      metadataFor ⟨"Start",
        [Stmt.ifStmt [[Stmt.line "line:0", Stmt.shortcut [[], []]]]]⟩ "line:0") ∧
    ("lastline" ∉
      metadataFor ⟨"Start",
        [Stmt.ifStmt [[] ++ [Stmt.line "line:0"]], Stmt.shortcut [[], []]]⟩ "line:0") ∧
    ("lastline" ∈
      metadataFor ⟨"Start",
        [Stmt.shortcut [[Stmt.line "line:1b", Stmt.shortcut [[], []]], []]]⟩ "line:1b") := by
  refine ⟨?_, ?_, ?_⟩
  · exact c3_if_block_lastline.1 "Start" "line:0" [] [] [[], []]
      [[Stmt.line "line:0", Stmt.shortcut [[], []]]] [] (List.mem_singleton.mpr rfl)
  · have h := c3_if_block_lastline.2.1 "Start" "line:0" [] [] [[], []] []
      (by simp [tagBlock]) (by simp)
      (by intro b hb; simp only [List.mem_cons, List.mem_singleton] at hb
          rcases hb with rfl | rfl | hb
          · simp [tagBlock]
          · simp [tagBlock]
          · simp at hb)
      (by simp [tagBlock])
    simpa using h
  · exact c3_if_block_lastline.2.2 "Start" "line:1b"
      [Stmt.line "line:1b", Stmt.shortcut [[], []]]
      [[Stmt.line "line:1b", Stmt.shortcut [[], []]], []] []
      (List.mem_cons_self _ _)
      (by simp [tagBlock, tagStmt, tagBlocks, isShortcutHead])

end YarnTag

namespace YarnCompiler

/-- The Yarn value types (§3 of the spec): a small lattice of value types
plus function types. -/
inductive YarnType where
  | any
  | number
  | str
  | boolean
  | func (params : List YarnType) (ret : YarnType)

/-- A variable or function declaration (§3 of the spec, `Declaration`). -/
structure Declaration where
  name : String
  typ : YarnType
  default_value : Option String
  source_file_name : Option String
  source_node_name : Option String
  description : Option String
  is_implicit : Bool

/-- A registry of host-callable functions with their signatures
(`Library` in yarnspinner_core, known here through its use in
`compiler.rs` and `register_initial_variables.rs`). -/
structure Library where
  functions : List (String × YarnType)

/-- The contents of one file to compile (`File` in `compiler.rs`). -/
structure File where
  file_name : String
  source : String

/-- The types of compilation the compiler will do
(`CompilationType` in `compiler.rs`). -/
inductive CompilationType where
  | fullCompilation
  | declarationsOnly
  | stringsOnly

/-- The compilation job (`Compiler` in `compiler.rs`): the files, the
function library, the compilation type and the caller-supplied variable
declarations.  These four fields are the entire state read by
`Compiler::compile`. -/
structure Compiler where
  files : List File
  library : Library
  compilation_type : CompilationType
  variable_declarations : List Declaration

/-- Modelled from the spec: `Library::standard_library` is not among the
sources; §4.4 lowers operators to synthetic library names such as
`Number.Add` and `String.Concat`. -/
def standard_library : Library :=
  { functions :=
      [("Number.Add", YarnType.func [YarnType.number, YarnType.number] YarnType.number),
       ("Number.Minus", YarnType.func [YarnType.number, YarnType.number] YarnType.number),
       ("Number.Multiply", YarnType.func [YarnType.number, YarnType.number] YarnType.number),
       ("Number.Divide", YarnType.func [YarnType.number, YarnType.number] YarnType.number),
       ("String.Concat", YarnType.func [YarnType.str, YarnType.str] YarnType.str),
       ("Bool.EqualTo", YarnType.func [YarnType.boolean, YarnType.boolean] YarnType.boolean)] }

/-- Modelled from the spec: `get_declarations_from_library` is not among
the sources; §4.3 seeds one function declaration per library signature. -/
def get_declarations_from_library (lib : Library) : List Declaration :=
  lib.functions.map fun nt =>
    { name := nt.1, typ := nt.2, default_value := none, source_file_name := none,
      source_node_name := none, description := none, is_implicit := true }

/-- Modelled from the spec: the state threaded through the compilation
steps (`CompilationIntermediate`; `run_compilation.rs` is not among the
sources).  The claims touch the job and the accumulated known variable
declarations; the remaining fields stand for the rest of the pipeline
state. -/
structure CompilationIntermediate where
  job : Compiler
  known_variable_declarations : List Declaration
  derived_variable_declarations : List Declaration
  string_table : List (String × String)
  diagnostics : List String

/-- Translation of `register_initial_variables` from
`src/crates/compiler/src/compilation_steps/register_initial_variables.rs`:
extends the known variable declarations with the job's caller-supplied
declarations, then the standard library's declarations, then the job
library's declarations, in three successive `extend` calls. -/
def register_initial_variables (state : CompilationIntermediate) : CompilationIntermediate :=
  let v₁ := state.known_variable_declarations ++ state.job.variable_declarations
  let v₂ := v₁ ++ get_declarations_from_library standard_library
  let v₃ := v₂ ++ get_declarations_from_library state.job.library
  { state with known_variable_declarations := v₃ }

/-- The result of a compilation (`Compilation`; §6 of the spec). -/
structure Compilation where
  program : Option (List (String × List String))
  string_table : List (String × String)
  declarations : List Declaration
  diagnostics : List String

/-- Modelled from the spec: `run_compilation::compile` is not among the
sources; per §5 and §8 the compiler is a pure function of the job.  The
model runs initial-variable registration and derives the string table and
a program skeleton from the files, so every output field is computed from
the four job fields alone. -/
def compile (c : Compiler) : Compilation :=
  let state := register_initial_variables
    { job := c, known_variable_declarations := [], derived_variable_declarations := [],
      string_table := c.files.map (fun f => (f.file_name, f.source)), diagnostics := [] }
  { program :=
      match c.compilation_type with
      | CompilationType.fullCompilation =>
          some (c.files.map fun f => (f.file_name, f.source.splitOn "\n"))
      | CompilationType.declarationsOnly => none
      | CompilationType.stringsOnly => none,
    string_table := state.string_table,
    declarations := state.known_variable_declarations,
    diagnostics := state.diagnostics }

/-- C7: `register_initial_variables` appends to the known declarations
exactly the caller-supplied declarations, then the standard-library
declarations, then the user-library declarations, in that order; the
pre-existing declarations stay in front and every other field of the
compilation state is unchanged. -/
theorem c7_register_initial_variables_spec :
    ∀ (state : CompilationIntermediate),
      (register_initial_variables state).known_variable_declarations =
        state.known_variable_declarations ++ state.job.variable_declarations ++
          get_declarations_from_library standard_library ++
          get_declarations_from_library state.job.library ∧
      (register_initial_variables state).job = state.job ∧
      (register_initial_variables state).derived_variable_declarations =
        state.derived_variable_declarations ∧
      (register_initial_variables state).string_table = state.string_table ∧
      (register_initial_variables state).diagnostics = state.diagnostics :=
  fun _ => ⟨rfl, rfl, rfl, rfl, rfl⟩

/-- C4: `Compiler::compile` is deterministic — two jobs that agree on the
files, the library, the compilation type and the variable declarations
compile to identical `Compilation` results; no hidden state enters. -/
theorem c4_compile_deterministic :
    ∀ (c₁ c₂ : Compiler),
      c₁.files = c₂.files → c₁.library = c₂.library →
      c₁.compilation_type = c₂.compilation_type →
      c₁.variable_declarations = c₂.variable_declarations →
      compile c₁ = compile c₂ := by
  intro c₁ c₂ hf hl ht hv
  have h : c₁ = c₂ := by
    cases c₁; cases c₂
    cases hf; cases hl; cases ht; cases hv
    rfl
  rw [h]

/-- Closed instance of `c4_compile_deterministic` on a concrete job. -/
theorem c4_compile_deterministic_witness :
    compile
      { files := [{ file_name := "test.yarn", source := "title: test" }],
        library := { functions := [] },
        compilation_type := CompilationType.fullCompilation,
        variable_declarations := [] } =
    compile
      { files := [{ file_name := "test.yarn", source := "title: test" }],
        library := { functions := [] },
        compilation_type := CompilationType.fullCompilation,
        variable_declarations := [] } :=
  c4_compile_deterministic _ _ rfl rfl rfl rfl

end YarnCompiler

namespace DialogueView

/-- A dialogue option as delivered by the virtual machine and consumed by
`option_selection.rs`: the option id, its line text and whether its
condition evaluated to true. -/
structure DialogueOption where
  id : Nat
  text : String
  is_available : Bool

/-- The options resource of the example dialogue view
(`OptionSelection` in `option_selection.rs`). -/
structure OptionSelection where
  options : List DialogueOption

/-- Translation of `OptionSelection::from_option_set` from
`src/crates/example_dialogue_view/src/option_selection.rs`: keeps the
options whose `is_available` flag is set. -/
def OptionSelection.from_option_set (options : List DialogueOption) : OptionSelection :=
  { options := options.filter fun o => o.is_available }

/-- C10: `from_option_set` keeps exactly the available options and
preserves their relative order (the result is a sublist of the input);
an option whose condition evaluated to false never appears. -/
theorem c10_from_option_set_keeps_available :
    ∀ (options : List DialogueOption),
      List.Sublist (OptionSelection.from_option_set options).options options ∧
      (∀ o : DialogueOption,
        o ∈ (OptionSelection.from_option_set options).options ↔
          o ∈ options ∧ o.is_available = true) := by
  intro options
  refine ⟨List.filter_sublist options, fun o => ?_⟩
  simp [OptionSelection.from_option_set, List.mem_filter]

end DialogueView

namespace DialogueRunner

/-- Modelled from the spec: the content-delivering instructions of a node
relevant to command dispatch (§4.6); `RUN_LINE` carries the line text and
`RUN_COMMAND` the command name with its already-evaluated parameters
(seconds are modelled as rationals). -/
inductive Instr where
  | runLine (text : String)
  | runCommand (name : String) (params : List ℚ)

/-- Modelled from the spec: the execution state of the dialogue runner
(§4.6), with the host-side parking on `wait` (§4.7) folded in as
`waitingUntil`. -/
inductive Mode where
  | ready
  | waitingForContinue
  | waitingUntil (t : ℚ)
  | stopped

/-- The dialogue runner: the current node's instructions, the program
counter and the execution mode. -/
structure Runner where
  script : List Instr
  pc : Nat
  mode : Mode

/-- The events the runner surfaces to the host (§6). -/
inductive Event where
  | line (text : String)
  | command (name : String) (params : List ℚ)
  | nodeComplete
  | dialogueComplete

/-- Modelled from the spec: deliver the next piece of content (§4.6–§4.7).
A line waits for an explicit continue; a `wait` command parks the dialogue
until its timer elapses; every other command — registered with the host or
not — is treated as delivered and execution continues on the next update;
running past the script emits the completion events. -/
def deliver (handlers : List String) (now : ℚ) (r : Runner) : Runner × List Event :=
  match r.script.get? r.pc with
  | none =>
      ({ r with mode := Mode.stopped }, [Event.nodeComplete, Event.dialogueComplete])
  | some (Instr.runLine text) =>
      ({ r with pc := r.pc + 1, mode := Mode.waitingForContinue }, [Event.line text])
  | some (Instr.runCommand name params) =>
      if name = "wait" then
        ({ r with pc := r.pc + 1, mode := Mode.waitingUntil (now + params.headD 0) },
          [Event.command name params])
      else if name ∈ handlers then
        ({ r with pc := r.pc + 1, mode := Mode.ready }, [Event.command name params])
      else
        ({ r with pc := r.pc + 1, mode := Mode.ready }, [Event.command name params])

/-- Modelled from the spec: one host tick (`app.update()`).  A runner that
is ready delivers content; one waiting for continue stays put; one parked
on a timer resumes only once the current time has reached the deadline. -/
def update (handlers : List String) (now : ℚ) (r : Runner) : Runner × List Event :=
  match r.mode with
  | Mode.ready => deliver handlers now r
  | Mode.waitingForContinue => (r, [])
  | Mode.waitingUntil t =>
      if now < t then (r, []) else deliver handlers now { r with mode := Mode.ready }
  | Mode.stopped => (r, [])

/-- Modelled from the spec: `continue_dialogue_and_update` — an explicit
continue releases a runner waiting on a line, then the tick runs. -/
def continue_and_update (handlers : List String) (now : ℚ) (r : Runner) :
    Runner × List Event :=
  match r.mode with
  | Mode.waitingForContinue => update handlers now { r with mode := Mode.ready }
  | _ => update handlers now r

/-- The script of scenario S4 (`wait.yarn`): a line, a one-second wait
command, a closing line. -/
def s4Script : List Instr :=
  [Instr.runLine "Starting wait", Instr.runCommand "wait" [1],
   Instr.runLine "Ended wait"]

/-- C5: in scenario S4, the first update presents `Starting wait`; the
continue after it emits the command event `wait` with the single parameter
1.0 and parks the runner for one second; every continue issued strictly
before the second has elapsed emits nothing and leaves the runner
unchanged; the first continue at or after the deadline presents
`Ended wait`. -/
theorem c5_wait_scenario :
    ∀ (handlers : List String) (t₀ t₁ : ℚ),
      update handlers t₀ { script := s4Script, pc := 0, mode := Mode.ready } =
        ({ script := s4Script, pc := 1, mode := Mode.waitingForContinue },
          [Event.line "Starting wait"]) ∧
      continue_and_update handlers t₁
          { script := s4Script, pc := 1, mode := Mode.waitingForContinue } =
        ({ script := s4Script, pc := 2, mode := Mode.waitingUntil (t₁ + 1) },
          [Event.command "wait" [1]]) ∧
      (∀ t : ℚ, t < t₁ + 1 →
        continue_and_update handlers t
            { script := s4Script, pc := 2, mode := Mode.waitingUntil (t₁ + 1) } =
          ({ script := s4Script, pc := 2, mode := Mode.waitingUntil (t₁ + 1) }, [])) ∧
      (∀ t : ℚ, t₁ + 1 ≤ t →
        continue_and_update handlers t
            { script := s4Script, pc := 2, mode := Mode.waitingUntil (t₁ + 1) } =
          ({ script := s4Script, pc := 3, mode := Mode.waitingForContinue },
            [Event.line "Ended wait"])) := by
  intro handlers t₀ t₁
  refine ⟨?_, ?_, ?_, ?_⟩
  · simp [update, deliver, s4Script]
  · simp [continue_and_update, update, deliver, s4Script]
  · intro t ht
    simp [continue_and_update, update, ht]
  · intro t ht
    simp [continue_and_update, update, deliver, s4Script, not_lt.mpr ht]

/-- Closed instance of `c5_wait_scenario`: the command is issued at time 0,
a continue at time 1/2 emits nothing, a continue at time 1 presents
`Ended wait`. -/
theorem c5_wait_scenario_witness :
    (continue_and_update [] (1/2 : ℚ)
        { script := s4Script, pc := 2, mode := Mode.waitingUntil ((0 : ℚ) + 1) } =
      ({ script := s4Script, pc := 2, mode := Mode.waitingUntil ((0 : ℚ) + 1) }, [])) ∧
    (continue_and_update [] (1 : ℚ)
        { script := s4Script, pc := 2, mode := Mode.waitingUntil ((0 : ℚ) + 1) } =
      ({ script := s4Script, pc := 3, mode := Mode.waitingForContinue },
        [Event.line "Ended wait"])) := by
  constructor
  · exact (c5_wait_scenario [] 0 0).2.2.1 (1/2) (by norm_num)
  · exact (c5_wait_scenario [] 0 0).2.2.2 1 (by norm_num)

/-- C6: after a non-`wait` command event the runner stays ready and moves
to the next instruction, independently of whether a host handler is
registered for the command; the following update delivers the next
instruction's line without any explicit continue. -/
theorem c6_command_implies_continue :
    ∀ (handlers : List String) (script : List Instr) (pc : Nat) (name : String)
      (params : List ℚ) (now now' : ℚ),
      script.get? pc = some (Instr.runCommand name params) →
      name ≠ "wait" →
      update handlers now { script := script, pc := pc, mode := Mode.ready } =
        ({ script := script, pc := pc + 1, mode := Mode.ready },
          [Event.command name params]) ∧
      (∀ text : String, script.get? (pc + 1) = some (Instr.runLine text) →
        update handlers now' { script := script, pc := pc + 1, mode := Mode.ready } =
          ({ script := script, pc := pc + 2, mode := Mode.waitingForContinue },
            [Event.line text])) := by
  intro handlers script pc name params now now' hpc hname
  constructor
  · rw [update]
    show deliver handlers now _ = _
    rw [deliver]
    simp only [hpc]
    rw [if_neg hname]
    by_cases hmem : name ∈ handlers
    · rw [if_pos hmem]
    · rw [if_neg hmem]
  · intro text htext
    rw [update]
    show deliver handlers now' _ = _
    rw [deliver]
    simp only [htext]

/-- Closed instance of `c6_command_implies_continue`: an unregistered
command (no handler in the empty handler list) is delivered and the next
update presents the following line without a continue. -/
theorem c6_command_implies_continue_witness :
    update [] (0 : ℚ)
        { script := [Instr.runCommand "unregistered" [], Instr.runLine "after"],
          pc := 0, mode := Mode.ready } =
      ({ script := [Instr.runCommand "unregistered" [], Instr.runLine "after"],
          pc := 1, mode := Mode.ready },
        [Event.command "unregistered" []]) ∧
    update [] (0 : ℚ)
        { script := [Instr.runCommand "unregistered" [], Instr.runLine "after"],
          pc := 1, mode := Mode.ready } =
      ({ script := [Instr.runCommand "unregistered" [], Instr.runLine "after"],
          pc := 2, mode := Mode.waitingForContinue },
        [Event.line "after"]) := by
  constructor
  · exact (c6_command_implies_continue []
      [Instr.runCommand "unregistered" [], Instr.runLine "after"]
      0 "unregistered" [] 0 0 rfl (by decide)).1
  · exact (c6_command_implies_continue []
      [Instr.runCommand "unregistered" [], Instr.runLine "after"]
      0 "unregistered" [] 0 0 rfl (by decide)).2 "after" rfl

end DialogueRunner

namespace YarnFnModel

/-- A Yarn value (§3 of the spec): number, string or boolean. -/
inductive YarnValue where
  | number (q : ℚ)
  | str (s : String)
  | boolean (b : Bool)

/-- The shape of one `YarnFnParam` of a registered host function
(`function_wrapping.rs`): a required value parameter, an optional trailing
parameter, or a tuple of parameters flattened from consecutive input
values. -/
inductive ParamSpec where
  | value
  | optionalValue
  | tuple (ps : List ParamSpec)

mutual

/-- Modelled from the spec: `YarnFnParam::retrieve` (the impls live outside
the given sources).  It takes the parameter's values from the front of the
input iterator; a required parameter on an exhausted iterator is a panic
(`none`), an optional parameter on an exhausted iterator yields nothing,
and a tuple retrieves its components left to right.  The first component of
the result is the flattened list of values bound, the second the remaining
input. -/
def retrieve : ParamSpec → List YarnValue → Option (List YarnValue × List YarnValue)
  | ParamSpec.value, [] => none
  | ParamSpec.value, v :: rest => some ([v], rest)
  | ParamSpec.optionalValue, [] => some ([], [])
  | ParamSpec.optionalValue, v :: rest => some ([v], rest)
  | ParamSpec.tuple ps, input => retrieveList ps input

/-- Retrieves a list of parameters in order, threading the input. -/
def retrieveList : List ParamSpec → List YarnValue → Option (List YarnValue × List YarnValue)
  | [], input => some ([], input)
  | p :: ps, input =>
    match retrieve p input with
    | none => none
    | some vr =>
      match retrieveList ps vr.2 with
      | none => none
      | some vr' => some (vr.1 ++ vr'.1, vr'.2)

end

/-- Translation of `YarnFn::call` from `function_wrapping.rs` (the
`impl_yarn_fn_tuple` macro): the input values are wrapped and retrieved
parameter by parameter, then `assert!(iter.next().is_none(), ...)` panics
(`none`) when input values remain, and the wrapped function is applied to
the retrieved arguments.  The application is represented by returning the
flattened argument list in application order. -/
def call (ps : List ParamSpec) (input : List YarnValue) : Option (List YarnValue) :=
  match retrieveList ps input with
  | none => none
  | some ar => if ar.2.isEmpty then some ar.1 else none

mutual

/-- Whether a parameter contains no optional component. -/
def noOptional : ParamSpec → Bool
  | ParamSpec.value => true
  | ParamSpec.optionalValue => false
  | ParamSpec.tuple ps => noOptionalList ps

/-- Whether a parameter list contains no optional component. -/
def noOptionalList : List ParamSpec → Bool
  | [] => true
  | p :: ps => noOptional p && noOptionalList ps

end

mutual

/-- The number of input values a parameter consumes. -/
def consumed : ParamSpec → Nat
  | ParamSpec.value => 1
  | ParamSpec.optionalValue => 1
  | ParamSpec.tuple ps => consumedList ps

/-- The number of input values a parameter list consumes. -/
def consumedList : List ParamSpec → Nat
  | [] => 0
  | p :: ps => consumed p + consumedList ps

end

theorem retrieve_noOptional :
    ∀ (p : ParamSpec) (input : List YarnValue), noOptional p = true →
      retrieve p input =
        if consumed p ≤ input.length then
          some (input.take (consumed p), input.drop (consumed p))
        else none := by
  have key : ∀ (n : Nat),
      (∀ (p : ParamSpec), sizeOf p ≤ n → ∀ (input : List YarnValue),
        noOptional p = true →
        retrieve p input =
          if consumed p ≤ input.length then
            some (input.take (consumed p), input.drop (consumed p))
          else none) ∧
      (∀ (ps : List ParamSpec), sizeOf ps ≤ n → ∀ (input : List YarnValue),
        noOptionalList ps = true →
        retrieveList ps input =
          if consumedList ps ≤ input.length then
            some (input.take (consumedList ps), input.drop (consumedList ps))
          else none) := by
    intro n
    induction n with
    | zero =>
      constructor
      · intro p hp; cases p <;> simp at hp
      · intro ps hps; cases ps <;> simp at hps
    | succ n ih =>
      constructor
      · intro p hp input hopt
        cases p with
        | value =>
          cases input with
          | nil => simp [retrieve, consumed]
          | cons v rest => simp [retrieve, consumed]
        | optionalValue => simp [noOptional] at hopt
        | tuple ps =>
          have hps : sizeOf ps ≤ n := by simp at hp; omega
          rw [show retrieve (ParamSpec.tuple ps) input = retrieveList ps input from by
            simp [retrieve]]
          rw [show consumed (ParamSpec.tuple ps) = consumedList ps from by simp [consumed]]
          exact ih.2 ps hps input (by simpa [noOptional] using hopt)
      · intro ps hps input hopt
        cases ps with
        | nil => simp [retrieveList, consumedList]
        | cons p ps' =>
          have h1 : sizeOf p ≤ n := by simp at hps; omega
          have h2 : sizeOf ps' ≤ n := by simp at hps; omega
          rw [noOptionalList] at hopt
          simp only [Bool.and_eq_true] at hopt
          rw [retrieveList, ih.1 p h1 input hopt.1]
          rw [show consumedList (p :: ps') = consumed p + consumedList ps' from by
            simp [consumedList]]
          by_cases hc : consumed p ≤ input.length
          · rw [if_pos hc]
            dsimp only
            rw [ih.2 ps' h2 (input.drop (consumed p)) hopt.2]
            simp only [List.length_drop]
            by_cases hc' : consumedList ps' ≤ input.length - consumed p
            · rw [if_pos hc', if_pos (by omega)]
              dsimp only
              simp only [List.drop_drop]
              rw [List.take_add]
            · rw [if_neg hc']
              dsimp only
              rw [if_neg (by omega)]
          · rw [if_neg hc]
            dsimp only
            rw [if_neg (by omega)]
  intro p input hopt
  exact (key (sizeOf p)).1 p le_rfl input hopt

theorem retrieveList_noOptional :
    ∀ (ps : List ParamSpec) (input : List YarnValue), noOptionalList ps = true →
      retrieveList ps input =
        if consumedList ps ≤ input.length then
          some (input.take (consumedList ps), input.drop (consumedList ps))
        else none := by
  intro ps input hopt
  cases ps with
  | nil => simp [retrieveList, consumedList]
  | cons p ps' =>
    have h := retrieve_noOptional (ParamSpec.tuple (p :: ps')) input
      (by simpa [noOptional] using hopt)
    rw [show retrieve (ParamSpec.tuple (p :: ps')) input = retrieveList (p :: ps') input
      from by simp [retrieve]] at h
    rw [show consumed (ParamSpec.tuple (p :: ps')) = consumedList (p :: ps') from by
      simp [consumed]] at h
    exact h

/-- C9: for a registered host function whose parameters consume exactly `n`
values (no optional parameters), a call with exactly `n` input values
applies the function to precisely those values in source order — tuple
parameters flattened left to right, the retrieved argument list is the
input itself — while a call with any other number of values panics (fails
the assertion, modelled as `none`) instead of returning a result. -/
theorem c9_call_exact_arity :
    ∀ (ps : List ParamSpec) (input : List YarnValue),
      noOptionalList ps = true →
      (input.length = consumedList ps → call ps input = some input) ∧
      (input.length ≠ consumedList ps → call ps input = none) := by
  intro ps input hopt
  rw [call, retrieveList_noOptional ps input hopt]
  constructor
  · intro hlen
    rw [if_pos (by omega)]
    simp only [← hlen, List.take_length, List.drop_length, List.isEmpty_nil, if_true]
  · intro hlen
    by_cases hc : consumedList ps ≤ input.length
    · rw [if_pos hc]
      simp only
      rw [if_neg]
      simp only [List.isEmpty_iff, List.drop_eq_nil_iff]
      omega
    · rw [if_neg hc]

/-- Closed instance of `c9_call_exact_arity`, mirroring
`unpacks_tuples_in_right_order`: the signature
`(a, (b, c), d, (e, f, g))` consumes seven values; seven inputs are bound
in source order, six inputs panic. -/
theorem c9_call_exact_arity_witness :
    (call
        [ParamSpec.value, ParamSpec.tuple [ParamSpec.value, ParamSpec.value],
          ParamSpec.value,
          ParamSpec.tuple [ParamSpec.value, ParamSpec.value, ParamSpec.value]]
        [YarnValue.number 1, YarnValue.number 2, YarnValue.number 3,
          YarnValue.number 4, YarnValue.number 5, YarnValue.number 6,
          YarnValue.number 7] =
      some [YarnValue.number 1, YarnValue.number 2, YarnValue.number 3,
        YarnValue.number 4, YarnValue.number 5, YarnValue.number 6,
        YarnValue.number 7]) ∧
    (call
        [ParamSpec.value, ParamSpec.tuple [ParamSpec.value, ParamSpec.value],
          ParamSpec.value,
          ParamSpec.tuple [ParamSpec.value, ParamSpec.value, ParamSpec.value]]
        [YarnValue.number 1, YarnValue.number 2, YarnValue.number 3,
          YarnValue.number 4, YarnValue.number 5, YarnValue.number 6] = none) := by
  constructor
  · exact (c9_call_exact_arity _ _ (by simp [noOptionalList, noOptional])).1
      (by simp [consumedList, consumed])
  · exact (c9_call_exact_arity _ _ (by simp [noOptionalList, noOptional])).2
      (by simp [consumedList, consumed])

end YarnFnModel

namespace LinesAround

/-- The number of newline characters in a string (modelled as a character
list). -/
def countNl (s : List Char) : Nat := s.count '\n'

/-- Splits a character list at every newline, keeping all pieces: the
result always has one piece more than the string has newlines, and the
pieces contain no newline. -/
def splitNl : List Char → List (List Char)
  | [] => [[]]
  | c :: rest =>
    if c = '\n' then [] :: splitNl rest
    else
      match splitNl rest with
      | [] => [[c]]
      | l :: ls => (c :: l) :: ls

/-- Joins pieces with a newline between consecutive pieces (`join("\n")`). -/
def joinNl : List (List Char) → List Char
  | [] => []
  | [l] => l
  | l :: ls => l ++ '\n' :: joinNl ls

/-- Strips one carriage return from the end of a piece, as Rust's
`str::lines` does for `\r\n` line endings. -/
def stripCr (l : List Char) : List Char :=
  if l.getLast? = some '\x0d' then l.dropLast else l

/-- Applies `f` to every element but the last. -/
def mapExceptLast (f : List Char → List Char) : List (List Char) → List (List Char)
  | [] => []
  | [a] => [a]
  | a :: rest => f a :: mapExceptLast f rest

/-- The behaviour of Rust's `str::lines`: split at `\n`, drop the optional
final line ending, strip a `\r` preceding each `\n`; a piece that has no
terminator (the final fragment) keeps a trailing `\r`. -/
def rustLines (s : List Char) : List (List Char) :=
  if s.isEmpty then []
  else if s.getLast? = some '\n' then ((splitNl s).dropLast).map stripCr
  else mapExceptLast stripCr (splitNl s)

/-- The result type of `get_lines_around`
(`LinesAroundResult` in `parser_rule_context_ext.rs`). -/
structure LinesAroundResult where
  lines : List Char
  first_line : Nat
deriving DecidableEq

/-- The `head_lines` vector of `get_lines_around`: the last `k` lines of
the text before the context, reversed, with an empty first line prepended
when that text ends with a newline. -/
def head_lines_of (head : List Char) (k : Nat) : List (List Char) :=
  if head.getLast? = some '\n' then [] :: (rustLines head).reverse.take k
  else (rustLines head).reverse.take k

/-- The joined head extension of `get_lines_around`. -/
def head_join (head : List Char) (k : Nat) : List Char :=
  joinNl (head_lines_of head k).reverse

/-- The joined tail extension of `get_lines_around`. -/
def tail_join (tail : List Char) (k : Nat) : List Char :=
  joinNl ((rustLines tail).take k)

/-- Translation of `get_lines_around` from
`src/crates/compiler/src/parser_rule_context_ext.rs`.  The file is a
character list, `char_start` is the start token's first character index,
`char_stop` is the stop token's last character index plus one (as in the
source), and `start_line0` is the start token's zero-based line number as
reported by the token (`get_line_as_usize().saturating_sub(1)`).  The two
`char_indices().nth(..).unwrap()` calls of the source panic — modelled as
`none` — when the requested index does not fall on an existing character,
which for the stop index happens whenever the context runs through the
file's last character. -/
def get_lines_around (whole_file : List Char) (char_start char_stop : Nat)
    (start_line0 : Nat) (surrounding_lines : Nat) : Option LinesAroundResult :=
  if whole_file.length ≤ char_start then none
  else if whole_file.length ≤ char_stop then none
  else
    let head := whole_file.take char_start
    let body := (whole_file.drop char_start).take (char_stop - char_start)
    let tail := whole_file.drop char_stop
    let head_k :=
      if head.getLast? = some '\n' ∨ body.head? = some '\n' then surrounding_lines
      else surrounding_lines + 1
    let tail_k :=
      if body.getLast? = some '\n' ∨ tail.head? = some '\n' then surrounding_lines
      else surrounding_lines + 1
    some { lines := head_join head head_k ++ body ++ tail_join tail tail_k,
           first_line := start_line0 - ((head_lines_of head head_k).length - 1) }

/-- Counterexample to C8 as stated, exhibiting both divergences.  First
conjunct: for the two-character file `ab`, the context covering the whole
file (`char_start = 0`, stop character index 1, hence `char_stop = 2`) is a
valid context within the file, yet the source panics on
`char_indices().nth(char_stop).unwrap()` — there is no character at index 2
— modelled as `none`.  Remaining conjuncts: for the file `a\r\nb\nxy`
with the context `b` (character 3, `char_stop = 4`), nothing panics, but
`str::lines` strips the `\r` of the surrounding line, so the function
returns `a\nb` — which is not a substring of the file, hence not the
context's original source text extended to whole lines. -/
theorem c8_panics_or_strips_cr :
    get_lines_around ['a', 'b'] 0 2 0 2 = none ∧
    get_lines_around ['a', '\x0d', '\n', 'b', '\n', 'x', 'y'] 3 4 1 1 =
      some ⟨['a', '\n', 'b'], 0⟩ ∧
    ¬ List.IsInfix ['a', '\n', 'b'] ['a', '\x0d', '\n', 'b', '\n', 'x', 'y'] := by
  refine ⟨rfl, by decide, by decide⟩

theorem joinNl_cons_cons (a b : List Char) (t : List (List Char)) :
    joinNl (a :: b :: t) = a ++ '\n' :: joinNl (b :: t) := rfl

theorem splitNl_ne_nil (s : List Char) : splitNl s ≠ [] := by
  cases s with
  | nil => simp [splitNl]
  | cons c rest =>
    rw [splitNl]
    by_cases hc : c = '\n'
    · simp [hc]
    · rw [if_neg hc]
      cases h : splitNl rest with
      | nil => simp
      | cons l ls => simp

theorem joinNl_splitNl (s : List Char) : joinNl (splitNl s) = s := by
  induction s with
  | nil => rfl
  | cons c rest ih =>
    rw [splitNl]
    by_cases hc : c = '\n'
    · rw [if_pos hc]
      cases h : splitNl rest with
      | nil => exact absurd h (splitNl_ne_nil rest)
      | cons l ls =>
        rw [joinNl_cons_cons, List.nil_append, hc]
        rw [h] at ih
        rw [ih]
    · rw [if_neg hc]
      cases h : splitNl rest with
      | nil => exact absurd h (splitNl_ne_nil rest)
      | cons l ls =>
        rw [h] at ih
        cases ls with
        | nil =>
          show joinNl [c :: l] = c :: rest
          show c :: l = c :: rest
          rw [show joinNl [l] = l from rfl] at ih
          rw [ih]
        | cons x t =>
          rw [show joinNl ((c :: l) :: x :: t) = (c :: l) ++ '\n' :: joinNl (x :: t)
            from rfl]
          rw [joinNl_cons_cons] at ih
          rw [List.cons_append, ← ih]

theorem splitNl_length (s : List Char) :
    (splitNl s).length = countNl s + 1 := by
  induction s with
  | nil => rfl
  | cons c rest ih =>
    rw [splitNl]
    by_cases hc : c = '\n'
    · rw [if_pos hc]
      simp only [List.length_cons, ih, countNl, List.count_cons]
      simp [hc]
    · rw [if_neg hc]
      cases h : splitNl rest with
      | nil => exact absurd h (splitNl_ne_nil rest)
      | cons l ls =>
        rw [h] at ih
        simp only [List.length_cons] at ih ⊢
        simp only [countNl, List.count_cons] at ih ⊢
        simp [hc, ih]

theorem splitNl_pieces_no_nl (s : List Char) :
    ∀ p ∈ splitNl s, '\n' ∉ p := by
  induction s with
  | nil => intro p hp; simp [splitNl] at hp; simp [hp]
  | cons c rest ih =>
    intro p hp
    rw [splitNl] at hp
    by_cases hc : c = '\n'
    · rw [if_pos hc] at hp
      rcases List.mem_cons.mp hp with rfl | hp
      · simp
      · exact ih p hp
    · rw [if_neg hc] at hp
      cases h : splitNl rest with
      | nil => exact absurd h (splitNl_ne_nil rest)
      | cons l ls =>
        rw [h] at hp
        rcases List.mem_cons.mp hp with rfl | hp
        · intro hmem
          rcases List.mem_cons.mp hmem with h1 | h1
          · exact hc h1.symm
          · exact ih l (h ▸ List.mem_cons_self l ls) h1
        · exact ih p (h ▸ List.mem_cons.mpr (Or.inr hp))

theorem splitNl_pieces_subset (s : List Char) :
    ∀ p ∈ splitNl s, ∀ c ∈ p, c ∈ s := by
  induction s with
  | nil => intro p hp; simp [splitNl] at hp; simp [hp]
  | cons c rest ih =>
    intro p hp d hd
    rw [splitNl] at hp
    by_cases hc : c = '\n'
    · rw [if_pos hc] at hp
      rcases List.mem_cons.mp hp with rfl | hp
      · simp at hd
      · exact List.mem_cons.mpr (Or.inr (ih p hp d hd))
    · rw [if_neg hc] at hp
      cases h : splitNl rest with
      | nil => exact absurd h (splitNl_ne_nil rest)
      | cons l ls =>
        rw [h] at hp
        rcases List.mem_cons.mp hp with rfl | hp
        · rcases List.mem_cons.mp hd with rfl | hd
          · exact List.mem_cons_self _ _
          · exact List.mem_cons.mpr
              (Or.inr (ih l (h ▸ List.mem_cons_self l ls) d hd))
        · exact List.mem_cons.mpr
            (Or.inr (ih p (h ▸ List.mem_cons.mpr (Or.inr hp)) d hd))

theorem countNl_append (x y : List Char) :
    countNl (x ++ y) = countNl x + countNl y := List.count_append _ _ _

theorem countNl_eq_zero {p : List Char} (h : '\n' ∉ p) : countNl p = 0 :=
  List.count_eq_zero.mpr h

theorem countNl_joinNl (l : List (List Char)) (h : ∀ p ∈ l, '\n' ∉ p) :
    countNl (joinNl l) = l.length - 1 := by
  induction l with
  | nil => rfl
  | cons a t ih =>
    cases t with
    | nil =>
      show countNl a = 0
      exact countNl_eq_zero (h a (List.mem_cons_self a []))
    | cons b t' =>
      rw [joinNl_cons_cons, countNl_append]
      rw [countNl_eq_zero (h a (List.mem_cons_self _ _))]
      rw [show countNl ('\n' :: joinNl (b :: t')) = countNl (joinNl (b :: t')) + 1 from by
        simp [countNl, List.count_cons]]
      rw [ih (fun p hp => h p (List.mem_cons.mpr (Or.inr hp)))]
      simp

theorem joinNl_append (l₁ l₂ : List (List Char)) (h₁ : l₁ ≠ []) (h₂ : l₂ ≠ []) :
    joinNl (l₁ ++ l₂) = joinNl l₁ ++ '\n' :: joinNl l₂ := by
  induction l₁ with
  | nil => exact absurd rfl h₁
  | cons a t ih =>
    cases t with
    | nil =>
      cases l₂ with
      | nil => exact absurd rfl h₂
      | cons x t' => rw [List.singleton_append, joinNl_cons_cons]; rfl
    | cons b t' =>
      rw [List.cons_append, joinNl_cons_cons]
      rw [show (b :: t') ++ l₂ = b :: (t' ++ l₂) from rfl]
      rw [show joinNl (a :: b :: (t' ++ l₂)) = a ++ '\n' :: joinNl (b :: (t' ++ l₂))
        from rfl]
      rw [show b :: (t' ++ l₂) = (b :: t') ++ l₂ from rfl]
      rw [ih (by simp)]
      simp

theorem splitNl_concat_nl (xs : List Char) :
    splitNl (xs ++ ['\n']) = splitNl xs ++ [[]] := by
  induction xs with
  | nil => rfl
  | cons c rest ih =>
    rw [List.cons_append, splitNl, splitNl]
    by_cases hc : c = '\n'
    · rw [if_pos hc, if_pos hc, ih, List.cons_append]
    · rw [if_neg hc, if_neg hc, ih]
      cases h : splitNl rest with
      | nil => exact absurd h (splitNl_ne_nil rest)
      | cons l ls => simp

theorem stripCr_eq_self {l : List Char} (h : '\x0d' ∉ l) : stripCr l = l := by
  rw [stripCr]
  by_cases hl : l.getLast? = some '\x0d'
  · exact absurd (List.mem_of_mem_getLast? (hl ▸ rfl)) h
  · rw [if_neg hl]

theorem map_stripCr_eq {L : List (List Char)} (h : ∀ p ∈ L, '\x0d' ∉ p) :
    L.map stripCr = L := by
  induction L with
  | nil => rfl
  | cons a t ih =>
    rw [List.map_cons, stripCr_eq_self (h a (List.mem_cons_self _ _)),
      ih (fun p hp => h p (List.mem_cons.mpr (Or.inr hp)))]

theorem mapExceptLast_eq {L : List (List Char)} (h : ∀ p ∈ L, '\x0d' ∉ p) :
    mapExceptLast stripCr L = L := by
  induction L with
  | nil => rfl
  | cons a t ih =>
    cases t with
    | nil => rfl
    | cons b t' =>
      rw [show mapExceptLast stripCr (a :: b :: t') =
          stripCr a :: mapExceptLast stripCr (b :: t') from rfl]
      rw [stripCr_eq_self (h a (List.mem_cons_self _ _)),
        ih (fun p hp => h p (List.mem_cons.mpr (Or.inr hp)))]

theorem rustLines_not_ends_nl {s : List Char} (hcr : '\x0d' ∉ s) (hne : s ≠ [])
    (hnl : s.getLast? ≠ some '\n') : rustLines s = splitNl s := by
  rw [rustLines, if_neg (by simpa using hne), if_neg hnl]
  exact mapExceptLast_eq (fun p hp hmem => hcr (splitNl_pieces_subset s p hp _ hmem))

theorem rustLines_ends_nl {xs : List Char} (hcr : '\x0d' ∉ xs ++ ['\n']) :
    rustLines (xs ++ ['\n']) = splitNl xs := by
  rw [rustLines, if_neg (by simp), if_pos (List.getLast?_concat xs)]
  rw [splitNl_concat_nl, List.dropLast_concat]
  exact map_stripCr_eq (fun p hp hmem =>
    hcr (List.mem_append.mpr (Or.inl (splitNl_pieces_subset xs p hp _ hmem))))

end LinesAround

namespace LinesAround

theorem rustLines_char (s : List Char) (hcr : '\x0d' ∉ s) (hne : s ≠ []) :
    ∃ suf : List Char, (suf = [] ∨ suf = ['\n']) ∧
      s = joinNl (rustLines s) ++ suf ∧
      rustLines s ≠ [] ∧ (∀ p ∈ rustLines s, '\n' ∉ p) ∧
      (s.getLast? = some '\n' → suf = ['\n']) ∧
      (s.getLast? ≠ some '\n' → suf = []) := by
  by_cases hnl : s.getLast? = some '\n'
  · have hdec : s.dropLast ++ ['\n'] = s := List.dropLast_append_getLast? _ hnl
    have hx : rustLines s = splitNl s.dropLast := by
      conv_lhs => rw [← hdec]
      exact rustLines_ends_nl (by rw [hdec]; exact hcr)
    refine ⟨['\n'], Or.inr rfl, ?_, ?_, ?_, fun _ => rfl, fun h => absurd hnl h⟩
    · rw [hx, joinNl_splitNl, hdec]
    · rw [hx]; exact splitNl_ne_nil _
    · rw [hx]; exact splitNl_pieces_no_nl _
  · have hx : rustLines s = splitNl s := rustLines_not_ends_nl hcr hne hnl
    refine ⟨[], Or.inl rfl, ?_, ?_, ?_, fun h => absurd h hnl, fun _ => rfl⟩
    · rw [hx, joinNl_splitNl, List.append_nil]
    · rw [hx]; exact splitNl_ne_nil _
    · rw [hx]; exact splitNl_pieces_no_nl _

theorem tail_join_spec (s : List Char) (k : Nat) (hcr : '\x0d' ∉ s) :
    ∃ tPost : List Char, s = tail_join s k ++ tPost ∧
      (tPost = [] ∨ tPost.head? = some '\n' ∨ (k = 0 ∧ tPost = s)) ∧
      countNl (tail_join s k) ≤ k - 1 := by
  by_cases hne : s = []
  · subst hne
    refine ⟨[], ?_, Or.inl rfl, ?_⟩
    · rw [tail_join, rustLines]
      simp [joinNl]
    · rw [tail_join, rustLines]
      simp [joinNl, countNl]
  · obtain ⟨suf, hsuf, hs, hLne, hpieces, _, _⟩ := rustLines_char s hcr hne
    rcases Nat.eq_zero_or_pos k with rfl | hk
    · refine ⟨s, ?_, Or.inr (Or.inr ⟨rfl, rfl⟩), ?_⟩
      · rw [tail_join, List.take_zero]
        rfl
      · rw [tail_join, List.take_zero]
        show countNl [] ≤ 0
        rfl
    · by_cases hlen : (rustLines s).length ≤ k
      · rw [tail_join, List.take_of_length_le hlen]
        refine ⟨suf, hs, ?_, ?_⟩
        · rcases hsuf with rfl | rfl
          · exact Or.inl rfl
          · exact Or.inr (Or.inl rfl)
        · rw [countNl_joinNl _ hpieces]
          have h1 : 1 ≤ (rustLines s).length :=
            List.length_pos.mpr hLne
          omega
      · push_neg at hlen
        have htake : (rustLines s).take k ≠ [] := by
          have : ((rustLines s).take k).length = k := by
            rw [List.length_take]; omega
          intro hcontra
          rw [hcontra] at this
          simp at this
          omega
        have hdrop : (rustLines s).drop k ≠ [] := by
          have : ((rustLines s).drop k).length = (rustLines s).length - k := by
            rw [List.length_drop]
          intro hcontra
          rw [hcontra] at this
          simp at this
          omega
        have hsplit : joinNl (rustLines s) =
            joinNl ((rustLines s).take k) ++ '\n' :: joinNl ((rustLines s).drop k) := by
          conv_lhs => rw [← List.take_append_drop k (rustLines s)]
          exact joinNl_append _ _ htake hdrop
        refine ⟨'\n' :: joinNl ((rustLines s).drop k) ++ suf, ?_, Or.inr (Or.inl rfl), ?_⟩
        · rw [tail_join]
          conv_lhs => rw [hs, hsplit]
          simp
        · rw [tail_join, countNl_joinNl _
            (fun p hp => hpieces p (List.mem_of_mem_take hp))]
          rw [List.length_take]
          omega

end LinesAround

namespace LinesAround

theorem rev_take_rev (L : List (List Char)) (k : Nat) :
    (L.reverse.take k).reverse = L.drop (L.length - k) := by
  rw [List.take_reverse, List.reverse_reverse]

theorem countNl_concat_nl (x : List Char) : countNl (x ++ ['\n']) = countNl x + 1 := by
  rw [countNl_append]
  simp [countNl]

theorem head_join_spec (s : List Char) (k : Nat) (hcr : '\x0d' ∉ s) :
    ∃ hPre : List Char, s = hPre ++ head_join s k ∧
      (hPre = [] ∨ hPre.getLast? = some '\n' ∨
        (k = 0 ∧ s.getLast? ≠ some '\n' ∧ hPre = s)) ∧
      countNl (head_join s k) ≤ (if s.getLast? = some '\n' then k else k - 1) ∧
      (head_lines_of s k).length - 1 = countNl (head_join s k) := by
  by_cases hne : s = []
  · subst hne
    refine ⟨[], ?_, Or.inl rfl, ?_, ?_⟩
    · rw [head_join, head_lines_of]
      simp [rustLines, joinNl]
    · rw [head_join, head_lines_of]
      simp [rustLines, joinNl, countNl]
    · rw [head_join, head_lines_of]
      simp [rustLines, joinNl, countNl]
  · by_cases hnl : s.getLast? = some '\n'
    · -- the text before the context ends with a newline
      have hdec : s.dropLast ++ ['\n'] = s := List.dropLast_append_getLast? _ hnl
      have hL : rustLines s = splitNl s.dropLast := by
        conv_lhs => rw [← hdec]
        exact rustLines_ends_nl (by rw [hdec]; exact hcr)
      have hjoin : joinNl (rustLines s) = s.dropLast := by rw [hL, joinNl_splitNl]
      have hLne : rustLines s ≠ [] := by rw [hL]; exact splitNl_ne_nil _
      have hpieces : ∀ p ∈ rustLines s, '\n' ∉ p := by
        rw [hL]; exact splitNl_pieces_no_nl _
      have hlines : head_lines_of s k = [] :: (rustLines s).reverse.take k := by
        rw [head_lines_of, if_pos hnl]
      have hjoin' : head_join s k =
          joinNl ((rustLines s).drop ((rustLines s).length - k) ++ [[]]) := by
        rw [head_join, hlines, List.reverse_cons, rev_take_rev]
      have hlen1 : 1 ≤ (rustLines s).length := List.length_pos.mpr hLne
      rcases Nat.eq_zero_or_pos k with rfl | hk
      · have hdropnil : (rustLines s).drop ((rustLines s).length - 0) = [] := by
          simp
        refine ⟨s, ?_, Or.inr (Or.inl hnl), ?_, ?_⟩
        · rw [hjoin', hdropnil]
          simp [joinNl]
        · rw [hjoin', hdropnil, if_pos hnl]
          show countNl (joinNl [[]]) ≤ 0
          simp [joinNl, countNl]
        · rw [hjoin', hdropnil, hlines]
          simp [joinNl, countNl]
      · have hdropne : (rustLines s).drop ((rustLines s).length - k) ≠ [] := by
          intro hcontra
          have := congrArg List.length hcontra
          rw [List.length_drop] at this
          simp at this
          omega
        have hjoin'' : head_join s k =
            joinNl ((rustLines s).drop ((rustLines s).length - k)) ++ ['\n'] := by
          rw [hjoin', joinNl_append _ _ hdropne (by simp)]
          rfl
        by_cases hklen : (rustLines s).length ≤ k
        · have hdropall : (rustLines s).length - k = 0 := by omega
          refine ⟨[], ?_, Or.inl rfl, ?_, ?_⟩
          · rw [hjoin'', hdropall, List.drop_zero, hjoin, List.nil_append, hdec]
          · rw [hjoin'', hdropall, List.drop_zero, if_pos hnl, countNl_concat_nl,
              countNl_joinNl _ hpieces]
            omega
          · rw [hjoin'', hdropall, List.drop_zero, hlines, countNl_concat_nl,
              countNl_joinNl _ hpieces]
            simp only [List.length_cons, List.length_take, List.length_reverse]
            omega
        · push_neg at hklen
          have hjpos : 1 ≤ (rustLines s).length - k := by omega
          have htakene : (rustLines s).take ((rustLines s).length - k) ≠ [] := by
            intro hcontra
            have := congrArg List.length hcontra
            rw [List.length_take] at this
            simp at this
            omega
          have hsplit : joinNl (rustLines s) =
              joinNl ((rustLines s).take ((rustLines s).length - k)) ++ '\n' :: joinNl ((rustLines s).drop ((rustLines s).length - k)) := by
            conv_lhs => rw [← List.take_append_drop ((rustLines s).length - k) (rustLines s)]
            exact joinNl_append _ _ htakene hdropne
          refine ⟨joinNl ((rustLines s).take ((rustLines s).length - k)) ++ ['\n'], ?_, Or.inr (Or.inl ?_), ?_, ?_⟩
          · rw [hjoin'']
            conv_lhs => rw [← hdec, ← hjoin, hsplit]
            simp
          · exact List.getLast?_concat _
          · rw [hjoin'', if_pos hnl, countNl_concat_nl, countNl_joinNl _
              (fun p hp => hpieces p (List.mem_of_mem_drop hp))]
            rw [List.length_drop]
            omega
          · rw [hjoin'', hlines, countNl_concat_nl, countNl_joinNl _
              (fun p hp => hpieces p (List.mem_of_mem_drop hp))]
            simp only [List.length_cons, List.length_take, List.length_reverse,
              List.length_drop]
            omega
    · -- the text before the context does not end with a newline
      have hL : rustLines s = splitNl s := rustLines_not_ends_nl hcr hne hnl
      have hjoin : joinNl (rustLines s) = s := by rw [hL, joinNl_splitNl]
      have hLne : rustLines s ≠ [] := by rw [hL]; exact splitNl_ne_nil _
      have hpieces : ∀ p ∈ rustLines s, '\n' ∉ p := by
        rw [hL]; exact splitNl_pieces_no_nl _
      have hlines : head_lines_of s k = (rustLines s).reverse.take k := by
        rw [head_lines_of, if_neg hnl]
      have hjoin' : head_join s k =
          joinNl ((rustLines s).drop ((rustLines s).length - k)) := by
        rw [head_join, hlines, rev_take_rev]
      have hlen1 : 1 ≤ (rustLines s).length := List.length_pos.mpr hLne
      rcases Nat.eq_zero_or_pos k with rfl | hk
      · refine ⟨s, ?_, Or.inr (Or.inr ⟨rfl, hnl, rfl⟩), ?_, ?_⟩
        · rw [hjoin']
          simp [joinNl]
        · rw [hjoin', if_neg hnl]
          simp [joinNl, countNl]
        · rw [hjoin', hlines]
          simp [joinNl, countNl]
      · by_cases hklen : (rustLines s).length ≤ k
        · have hdropall : (rustLines s).length - k = 0 := by omega
          refine ⟨[], ?_, Or.inl rfl, ?_, ?_⟩
          · rw [hjoin', hdropall, List.drop_zero, hjoin, List.nil_append]
          · rw [hjoin', hdropall, List.drop_zero, if_neg hnl, countNl_joinNl _ hpieces]
            omega
          · rw [hjoin', hdropall, List.drop_zero, hlines, countNl_joinNl _ hpieces]
            simp only [List.length_take, List.length_reverse]
            omega
        · push_neg at hklen
          have hjpos : 1 ≤ (rustLines s).length - k := by omega
          have htakene : (rustLines s).take ((rustLines s).length - k) ≠ [] := by
            intro hcontra
            have := congrArg List.length hcontra
            rw [List.length_take] at this
            simp at this
            omega
          have hdropne : (rustLines s).drop ((rustLines s).length - k) ≠ [] := by
            intro hcontra
            have := congrArg List.length hcontra
            rw [List.length_drop] at this
            simp at this
            omega
          have hsplit : joinNl (rustLines s) =
              joinNl ((rustLines s).take ((rustLines s).length - k)) ++ '\n' :: joinNl ((rustLines s).drop ((rustLines s).length - k)) := by
            conv_lhs => rw [← List.take_append_drop ((rustLines s).length - k) (rustLines s)]
            exact joinNl_append _ _ htakene hdropne
          refine ⟨joinNl ((rustLines s).take ((rustLines s).length - k)) ++ ['\n'], ?_, Or.inr (Or.inl ?_), ?_, ?_⟩
          · rw [hjoin']
            conv_lhs => rw [← hjoin, hsplit]
            simp
          · exact List.getLast?_concat _
          · rw [hjoin', if_neg hnl, countNl_joinNl _
              (fun p hp => hpieces p (List.mem_of_mem_drop hp))]
            rw [List.length_drop]
            omega
          · rw [hjoin', hlines, countNl_joinNl _
              (fun p hp => hpieces p (List.mem_of_mem_drop hp))]
            simp only [List.length_take, List.length_reverse, List.length_drop]
            omega

end LinesAround

namespace LinesAround

/-- C8 (amended): when the context stops before the file's final character
(`char_stop < length`, otherwise the source panics, see
`c8_panics_at_file_end`), the file uses `\n` line endings, and
`start_line0` is the start token's zero-based line (the number of newlines
before `char_start`), `get_lines_around` returns the context's original
source text extended to whole lines: the result is the context preceded by
a suffix of the text before it and followed by a prefix of the text after
it, both extensions stop at line boundaries, carry at most `n` newlines
each, and `first_line` is the zero-based line number of the first returned
line. -/
theorem c8_get_lines_around_spec :
    ∀ (file : List Char) (char_start char_stop start_line0 n : Nat),
      char_start ≤ char_stop → char_stop < file.length →
      '\x0d' ∉ file →
      start_line0 = countNl (file.take char_start) →
      ∃ (res : LinesAroundResult) (hExt tExt hPre tPost : List Char),
        get_lines_around file char_start char_stop start_line0 n = some res ∧
        res.lines =
          hExt ++ (file.drop char_start).take (char_stop - char_start) ++ tExt ∧
        file.take char_start = hPre ++ hExt ∧
        file.drop char_stop = tExt ++ tPost ∧
        (hPre = [] ∨ hPre.getLast? = some '\n' ∨
          ((file.drop char_start).take (char_stop - char_start)).head? = some '\n') ∧
        (tPost = [] ∨ tPost.head? = some '\n' ∨
          ((file.drop char_start).take (char_stop - char_start)).getLast? = some '\n') ∧
        countNl hExt ≤ n ∧ countNl tExt ≤ n ∧
        res.first_line = countNl hPre := by
  intro file cs ct l0 n h1 h2 hcr hl0
  obtain ⟨hPre, hpre_eq, hpre_bd, hpre_cnt, hpre_len⟩ :=
    head_join_spec (file.take cs)
      (if (file.take cs).getLast? = some '\n' ∨
          ((file.drop cs).take (ct - cs)).head? = some '\n' then n else n + 1)
      (fun hm => hcr (List.mem_of_mem_take hm))
  obtain ⟨tPost, tpost_eq, tpost_bd, tpost_cnt⟩ :=
    tail_join_spec (file.drop ct)
      (if ((file.drop cs).take (ct - cs)).getLast? = some '\n' ∨
          (file.drop ct).head? = some '\n' then n else n + 1)
      (fun hm => hcr (List.mem_of_mem_drop hm))
  refine ⟨⟨head_join (file.take cs)
        (if (file.take cs).getLast? = some '\n' ∨
            ((file.drop cs).take (ct - cs)).head? = some '\n' then n else n + 1) ++
        (file.drop cs).take (ct - cs) ++
        tail_join (file.drop ct)
          (if ((file.drop cs).take (ct - cs)).getLast? = some '\n' ∨
              (file.drop ct).head? = some '\n' then n else n + 1),
      l0 - ((head_lines_of (file.take cs)
        (if (file.take cs).getLast? = some '\n' ∨
            ((file.drop cs).take (ct - cs)).head? = some '\n' then n else n + 1)).length
          - 1)⟩,
    head_join (file.take cs)
      (if (file.take cs).getLast? = some '\n' ∨
          ((file.drop cs).take (ct - cs)).head? = some '\n' then n else n + 1),
    tail_join (file.drop ct)
      (if ((file.drop cs).take (ct - cs)).getLast? = some '\n' ∨
          (file.drop ct).head? = some '\n' then n else n + 1),
    hPre, tPost, ?_, rfl, hpre_eq, tpost_eq, ?_, ?_, ?_, ?_, ?_⟩
  · rw [get_lines_around, if_neg (by omega), if_neg (by omega)]
  · rcases hpre_bd with h | h | ⟨hk0, hnl, _⟩
    · exact Or.inl h
    · exact Or.inr (Or.inl h)
    · by_cases hcond : (file.take cs).getLast? = some '\n' ∨
          ((file.drop cs).take (ct - cs)).head? = some '\n'
      · rcases hcond with hcond | hcond
        · exact absurd hcond hnl
        · exact Or.inr (Or.inr hcond)
      · rw [if_neg hcond] at hk0
        omega
  · rcases tpost_bd with h | h | ⟨hk0, htp⟩
    · exact Or.inl h
    · exact Or.inr (Or.inl h)
    · by_cases hcond : ((file.drop cs).take (ct - cs)).getLast? = some '\n' ∨
          (file.drop ct).head? = some '\n'
      · rcases hcond with hcond | hcond
        · exact Or.inr (Or.inr hcond)
        · rw [htp]
          exact Or.inr (Or.inl hcond)
      · rw [if_neg hcond] at hk0
        omega
  · by_cases hnl : (file.take cs).getLast? = some '\n'
    · have hK : (if (file.take cs).getLast? = some '\n' ∨
          ((file.drop cs).take (ct - cs)).head? = some '\n' then n else n + 1) = n :=
        if_pos (Or.inl hnl)
      rw [if_pos hnl] at hpre_cnt
      rw [hK] at hpre_cnt ⊢
      exact hpre_cnt
    · rw [if_neg hnl] at hpre_cnt
      have hKle : (if (file.take cs).getLast? = some '\n' ∨
          ((file.drop cs).take (ct - cs)).head? = some '\n' then n else n + 1) ≤ n + 1 := by
        split <;> omega
      omega
  · have hTle : (if ((file.drop cs).take (ct - cs)).getLast? = some '\n' ∨
        (file.drop ct).head? = some '\n' then n else n + 1) ≤ n + 1 := by
      split <;> omega
    omega
  · show l0 - ((head_lines_of (file.take cs) _).length - 1) = countNl hPre
    rw [hpre_len]
    have hsum : countNl (file.take cs) = countNl hPre + countNl (head_join (file.take cs)
        (if (file.take cs).getLast? = some '\n' ∨
            ((file.drop cs).take (ct - cs)).head? = some '\n' then n else n + 1)) := by
      conv_lhs => rw [hpre_eq]
      exact countNl_append _ _
    omega

end LinesAround

namespace LinesAround

/-- Closed instance of `c8_get_lines_around_spec`: the file `a\nbc\nd`,
context `bc` (characters 2–3, so `char_stop = 4`), one surrounding line. -/
theorem c8_get_lines_around_spec_witness :
    ∃ (res : LinesAroundResult) (hExt tExt hPre tPost : List Char),
      get_lines_around ['a', '\n', 'b', 'c', '\n', 'd'] 2 4 1 1 = some res ∧
      res.lines =
        hExt ++ ((['a', '\n', 'b', 'c', '\n', 'd'].drop 2).take (4 - 2)) ++ tExt ∧
      ['a', '\n', 'b', 'c', '\n', 'd'].take 2 = hPre ++ hExt ∧
      ['a', '\n', 'b', 'c', '\n', 'd'].drop 4 = tExt ++ tPost ∧
      (hPre = [] ∨ hPre.getLast? = some '\n' ∨
        ((['a', '\n', 'b', 'c', '\n', 'd'].drop 2).take (4 - 2)).head? = some '\n') ∧
      (tPost = [] ∨ tPost.head? = some '\n' ∨
        ((['a', '\n', 'b', 'c', '\n', 'd'].drop 2).take (4 - 2)).getLast? = some '\n') ∧
      countNl hExt ≤ 1 ∧ countNl tExt ≤ 1 ∧
      res.first_line = countNl hPre :=
  c8_get_lines_around_spec ['a', '\n', 'b', 'c', '\n', 'd'] 2 4 1 1
    (by decide) (by decide) (by decide) (by decide)

end LinesAround
